import Mathlib

/-!
Shallow embedding of the sleep-report pipeline:

* `src/sleep_report/stages.py` — session reconstruction from intraday rows,
* `src/sleep_report/selectors.py` — matching a session to a nightly summary,
* `src/sleep_report/baselines.py` — per-metric baseline mean / population std,
* `src/image_summary.py` — z-score, goodness score and sigma-binned color ramp,
* `src/sleep_report/time_utils.py` — timestamp normalization to UTC.

Timestamps are modelled as rational numbers of seconds since the epoch;
metric values use real numbers (the code's floating point is idealized as
exact real arithmetic).
-/

namespace SleepReport

/-! ### stages.py -/

/-- One intraday row, keeping the three dict keys `build_stage_sessions`
reads: `time` (already normalized by `parse_time_utc`; `none` when the key
is missing), `SleepStageLevel` and `SleepStageSeconds` (`none` when missing
or not convertible to float). -/
structure Row where
  time : Option ℚ
  stage : Option ℤ
  dur : Option ℚ
deriving DecidableEq, Repr

def dRow : Row := ⟨none, none, none⟩

/-- `parse_time_utc(r[time_key])` for a retained row (its `time` is present). -/
def timeOf (r : Row) : ℚ := r.time.getD 0

structure StageSession where
  points : List Row
  start_utc : ℚ
  end_utc : ℚ
  total_stage_seconds : ℚ
deriving DecidableEq, Repr

def dSession : StageSession := ⟨[], 0, 0, 0⟩

/-- The filter on line 44: keep rows with both a stage code and a timestamp. -/
def keepRow (r : Row) : Bool := r.stage.isSome && r.time.isSome

/-- Lines 44–45: discard incomplete rows, then sort ascending by parsed time.
Python `list.sort` is a stable sort, and a stable sort by a total preorder
is unique, so any stable sort models it; insertion sort is used because it
is structurally recursive and therefore evaluates inside the kernel. -/
def sortedRows (rows : List Row) : List Row :=
  (rows.filter keepRow).insertionSort (fun a b => timeOf a ≤ timeOf b)

/-- One iteration of the `for r in rows` loop (lines 52–58); the state is
`(sessions, cur, prev_t)`. -/
def stepRow (gap_s : ℚ) :
    List (List Row) × List Row × Option ℚ → Row → List (List Row) × List Row × Option ℚ
  | (sessions, cur, prev_t), r =>
    let t := timeOf r
    match prev_t with
    | some p =>
        if gap_s < t - p ∧ cur ≠ [] then (sessions ++ [cur], [r], some t)
        else (sessions, cur ++ [r], some t)
    | none => (sessions, cur ++ [r], some t)

/-- Lines 59–60: flush the trailing group when it is non-empty. -/
def finishGroups (st : List (List Row) × List Row × Option ℚ) : List (List Row) :=
  if st.2.1.isEmpty then st.1 else st.1 ++ [st.2.1]

def groupRows (gap_s : ℚ) (rows : List Row) : List (List Row) :=
  finishGroups (rows.foldl (stepRow gap_s) ([], [], none))

/-- Line 79: `float(last.get(dur_key) or 240.0)` — Python's `or` falls back
to the default not only for a missing duration but also for a zero one. -/
def lastDurSeconds (r : Row) : ℚ :=
  match r.dur with
  | none => 240
  | some d => if d = 0 then 240 else d

/-- Lines 66–74: total of the explicit durations (missing ones contribute 0). -/
def sessionTotal (sess : List Row) : ℚ := (sess.filterMap Row.dur).sum

/-- Lines 63–84: build one `StageSession` from a group of rows. -/
def mkSession (sess : List Row) : StageSession :=
  { points := sess
    start_utc := timeOf (sess.headD dRow)
    end_utc := timeOf (sess.getLastD dRow) + lastDurSeconds (sess.getLastD dRow)
    total_stage_seconds := sessionTotal sess }

def build_stage_sessions (rows : List Row) (gap_hours : ℚ := 6) : List StageSession :=
  (groupRows (gap_hours * 3600) (sortedRows rows)).map mkSession

/-- Reference recursion computing the same grouping as the loop: `chunksRec
gap_s r l` is the list of gap-separated groups of `r :: l`. -/
def chunksRec (gap_s : ℚ) (r : Row) : List Row → List (List Row)
  | [] => [[r]]
  | r' :: rest =>
    if gap_s < timeOf r' - timeOf r then [r] :: chunksRec gap_s r' rest
    else
      match chunksRec gap_s r' rest with
      | [] => [[r]]
      | c :: cs => (r :: c) :: cs

/-- Apply `f` to the first group only. -/
def mapHead (f : List Row → List Row) : List (List Row) → List (List Row)
  | [] => []
  | c :: cs => f c :: cs

/-- Index of the group a flattened position falls into. -/
def posToSession {α : Type} : List (List α) → ℕ → ℕ
  | [], _ => 0
  | b :: bs, i => if i < b.length then 0 else posToSession bs (i - b.length) + 1

/-! ### selectors.py -/

/-- The key of Python's `min(sessions, key=lambda s: abs((s.end_utc - target).total_seconds()))`. -/
def sessKey (target : ℚ) (s : StageSession) : ℚ := |s.end_utc - target|

/-- Python's `min(xs, key=key)`: fold keeping the current best, replacing it
only on a strictly smaller key (so the first minimizer wins). -/
def firstMin {α : Type} (key : α → ℚ) (b : α) : List α → α
  | [] => b
  | a :: l => if key a < key b then firstMin key a l else firstMin key b l

/-- `match_session_to_summary` (selectors.py lines 71–79); the
`ValueError` raised on an empty candidate list is modelled as `none`. -/
def match_session_to_summary (target : ℚ) (sessions : List StageSession) :
    Option StageSession :=
  match sessions with
  | [] => none
  | s :: rest => some (rest.foldl (fun best a =>
      if sessKey target a < sessKey target best then a else best) s)

/-! ### baselines.py -/

/-- A value stored under a metric key of a summary dict: missing, a numeric
value, or present but not convertible by `float(...)`. -/
inductive FieldVal where
  | missing
  | num (x : ℝ)
  | bad

/-- One SleepSummary record: its raw `time` value (compared with `==`, never
parsed, so any type with decidable equality models it) and its metric
fields. -/
structure SummaryRec where
  time : Option ℤ
  fields : String → FieldVal

/-- `_mean_std` (baselines.py lines 24–29): population mean and standard
deviation, `(0, 0)` for an empty list. -/
noncomputable def mean_std (values : List ℝ) : ℝ × ℝ :=
  if values = [] then (0, 0)
  else
    let mu : ℝ := values.sum / values.length
    let var : ℝ := (values.map fun v => (v - mu) ^ 2).sum / values.length
    (mu, Real.sqrt var)

def excludeTime : Option SummaryRec → Option ℤ
  | none => none
  | some e => e.time

/-- The values collected for one metric (baselines.py lines 52–62): skip the
excluded record (matched by raw `time` equality, only when the exclude time
is present), then skip missing and non-convertible values. -/
def metricVals (summaries : List SummaryRec) (metric : String)
    (exclude_summary : Option SummaryRec) : List ℝ :=
  summaries.filterMap fun s =>
    if excludeTime exclude_summary ≠ none ∧ s.time = excludeTime exclude_summary then none
    else
      match s.fields metric with
      | .num x => some x
      | _ => none

/-- `compute_metric_baselines` (baselines.py lines 32–73), as the list of
`(metric, (mean, std))` pairs in metric order. -/
noncomputable def compute_metric_baselines (summaries : List SummaryRec)
    (metrics : List String) (min_count : ℕ := 5)
    (exclude_summary : Option SummaryRec := none) : List (String × (ℝ × ℝ)) :=
  metrics.map fun metric =>
    let vals := metricVals summaries metric exclude_summary
    if vals.length < min_count then (metric, (0, 0))
    else
      let ms := mean_std vals
      (metric, (ms.1, if ms.2 < 1e-12 then 0 else ms.2))

/-- Population mean, written from the spec: divide by the count. -/
noncomputable def popMean (values : List ℝ) : ℝ := values.sum / values.length

/-- Population standard deviation, written from the spec: the square root of
the sum of squared deviations divided by the count (not count − 1). -/
noncomputable def popStd (values : List ℝ) : ℝ :=
  Real.sqrt ((values.map fun v => (v - popMean values) ^ 2).sum / values.length)

/-! ### image_summary.py -/

def NEUTRAL_HEX : String := "#a1a38c"

noncomputable def SIGMA_CAP : ℝ := 2.5

noncomputable def GAMMA : ℝ := 1.6

def NEG_SIGMA_HEXES : List String :=
  [NEUTRAL_HEX, "#ac9886", "#b88c80", "#cf7673", "#bf4945", "#af1c17"]

def POS_SIGMA_HEXES : List String :=
  [NEUTRAL_HEX, "#9cb096", "#90caa9", "#8bd7b3", "#51c38d", "#17af68"]

/-- Python's builtin `round`: round half to even. -/
noncomputable def roundHalfEven (x : ℝ) : ℤ :=
  if Int.fract x = 1 / 2 then (if Even ⌊x⌋ then ⌊x⌋ else ⌊x⌋ + 1) else round x

/-- Line 142: `sigma = max(0.0, min(float(sigma), cap))`. -/
noncomputable def sigmaClamp (sigma cap : ℝ) : ℝ := max 0 (min sigma cap)

/-- Line 147: `t = (sigma / cap) ** GAMMA if cap > 0 else 0.0`. -/
noncomputable def rampT (sigma cap : ℝ) : ℝ :=
  if 0 < cap then (sigmaClamp sigma cap / cap) ^ GAMMA else 0

/-- Lines 148–149: `idx = int(round(t * (len(ramp) - 1)))` clamped to
`[0, len(ramp) - 1]`. -/
noncomputable def rampIndex (sigma cap : ℝ) (rampLen : ℕ) : ℤ :=
  max 0 (min (roundHalfEven (rampT sigma cap * ((rampLen : ℝ) - 1))) ((rampLen : ℤ) - 1))

/-- Line 144: `ramp = POS_SIGMA_HEXES if score >= 0 else NEG_SIGMA_HEXES`. -/
noncomputable def chosenRamp (score : ℝ) : List String :=
  if 0 ≤ score then POS_SIGMA_HEXES else NEG_SIGMA_HEXES

/-- `card_color_from_score_sigma` (lines 137–153), returning the selected hex
color and the alpha (the rgba conversion is rendering plumbing). -/
noncomputable def card_color_from_score_sigma (score sigma : ℝ) (cap : ℝ := SIGMA_CAP) :
    String × ℝ :=
  let ramp := chosenRamp score
  let alpha := if 0 < cap then 0.35 + 0.60 * (sigmaClamp sigma cap / cap) else 0.35
  (ramp.getD (rampIndex sigma cap ramp.length).toNat NEUTRAL_HEX, alpha)

/-- The z-score computed in `draw_metric_cards` (lines 323–332): 0 when the
current value is missing (or NaN) or the std is not above `1e-12`. -/
noncomputable def metric_z (current : Option ℝ) (mu sd : ℝ) : ℝ :=
  match current with
  | none => 0
  | some v => if 1e-12 < sd then (v - mu) / sd else 0

/-- Line 336: `score = z if higher_is_better else -z`. -/
noncomputable def goodness (z : ℝ) (higher_is_better : Bool) : ℝ :=
  if higher_is_better then z else -z

/-! ### time_utils.py -/

def digitVal (c : Char) : Option ℕ :=
  if c.isDigit then some (c.toNat - 48) else none

def take2 : List Char → Option (ℕ × List Char)
  | a :: b :: rest =>
    match digitVal a, digitVal b with
    | some x, some y => some (10 * x + y, rest)
    | _, _ => none
  | _ => none

def take4 : List Char → Option (ℕ × List Char)
  | a :: b :: c :: d :: rest =>
    match digitVal a, digitVal b, digitVal c, digitVal d with
    | some x, some y, some z, some w => some (1000 * x + 100 * y + 10 * z + w, rest)
    | _, _, _, _ => none
  | _ => none

def expectChar (c : Char) : List Char → Option (List Char)
  | x :: rest => if x = c then some rest else none
  | [] => none

def isLeapYear (y : ℕ) : Bool := y % 4 = 0 && (y % 100 ≠ 0 || y % 400 = 0)

def daysInMonth (y m : ℕ) : ℕ :=
  if m = 2 then (if isLeapYear y then 29 else 28)
  else if m = 4 ∨ m = 6 ∨ m = 9 ∨ m = 11 then 30
  else 31

/-- Days between a Gregorian civil date (year ≥ 1) and 1970-01-01. -/
def daysFromCivil (y m d : ℕ) : ℤ :=
  let y' := if m ≤ 2 then y - 1 else y
  let era := y' / 400
  let yoe := y' % 400
  let mp := (m + 9) % 12
  let doy := (153 * mp + 2) / 5 + (d - 1)
  let doe := yoe * 365 + yoe / 4 - yoe / 100 + doy
  ((era * 146097 + doe : ℕ) : ℤ) - 719468

/-- A fractional-second field after the `.`: exactly 3 or 6 ASCII digits,
scaled to microseconds (`_parse_hh_mm_ss_ff`'s tail). -/
def parseMicro (cs : List Char) : Option ℕ :=
  match cs.mapM digitVal with
  | some ds =>
    if ds.length = 3 then some ((ds.foldl (fun a d => 10 * a + d) 0) * 1000)
    else if ds.length = 6 then some (ds.foldl (fun a d => 10 * a + d) 0)
    else none
  | none => none

/-- CPython's `_parse_hh_mm_ss_ff`: `HH[:MM[:SS[.fff[fff]]]]`, each field two
ASCII digits, the fraction allowed only after full seconds, consuming the
whole string; omitted fields default to 0. No range checks here — they
happen in the `datetime`/`timezone` constructors. -/
def parseHMSF (cs : List Char) : Option (ℕ × ℕ × ℕ × ℕ) := do
  let (h, rest) ← take2 cs
  match rest with
  | [] => pure (h, 0, 0, 0)
  | c1 :: rest1 =>
    if c1 = ':' then do
      let (mi, rest2) ← take2 rest1
      match rest2 with
      | [] => pure (h, mi, 0, 0)
      | c2 :: rest3 =>
        if c2 = ':' then do
          let (s, rest4) ← take2 rest3
          match rest4 with
          | [] => pure (h, mi, s, 0)
          | c3 :: rest5 =>
            if c3 = '.' then do
              let us ← parseMicro rest5
              pure (h, mi, s, us)
            else none
        else none
    else none

/-- The timezone split of `_parse_isoformat_time`: the first `-` anywhere in
the time string, else the first `+`, separates the time from the offset;
the sign is the separator character itself. -/
def tzSplit (tstr : List Char) : List Char × Option (ℤ × List Char) :=
  match tstr.findIdx? (fun c => c = '-') with
  | some i => (tstr.take i, some (-1, tstr.drop (i + 1)))
  | none =>
    match tstr.findIdx? (fun c => c = '+') with
    | some i => (tstr.take i, some (1, tstr.drop (i + 1)))
    | none => (tstr, none)

/-- CPython ≤ 3.10's `_parse_isoformat_time` plus the constructor checks:
the time of day in microseconds and the optional UTC offset in
microseconds. The time components must satisfy `datetime`'s ranges; the
offset string must have length 5, 8 or 15 (`HH:MM`, `HH:MM:SS`,
`HH:MM:SS.ffffff`), its fields are not individually range-checked, and
`timezone` only requires the total magnitude to be strictly below 24
hours (so `+00:99` is a valid offset of 99 minutes, as in CPython). -/
def parse_isoformat_time (tstr : List Char) : Option (ℕ × Option ℤ) :=
  if tstr.length < 2 then none
  else
    match tzSplit tstr with
    | (timestr, tz) => do
      let (h, mi, s, us) ← parseHMSF timestr
      if h ≤ 23 ∧ mi ≤ 59 ∧ s ≤ 59 then
        let tmicro : ℕ := (h * 3600 + mi * 60 + s) * 1000000 + us
        match tz with
        | none => pure (tmicro, none)
        | some (sign, tzstr) =>
          if tzstr.length = 5 ∨ tzstr.length = 8 ∨ tzstr.length = 15 then do
            let (oh, om, os, ous) ← parseHMSF tzstr
            let total : ℕ := (oh * 3600 + om * 60 + os) * 1000000 + ous
            if total < 86400000000 then pure (tmicro, some (sign * (total : ℤ)))
            else none
          else none
      else none

/-- The date part of `fromisoformat`: exactly `YYYY-MM-DD` with the ranges
enforced by the `date` constructor (year ≥ 1, month 1–12, day within the
month). -/
def parse_isoformat_date (cs : List Char) : Option (ℕ × ℕ × ℕ) := do
  let (y, cs1) ← take4 cs
  let cs2 ← expectChar '-' cs1
  let (mo, cs3) ← take2 cs2
  let cs4 ← expectChar '-' cs3
  let (d, cs5) ← take2 cs4
  if cs5 = [] ∧ 1 ≤ y ∧ 1 ≤ mo ∧ mo ≤ 12 ∧ 1 ≤ d ∧ d ≤ daysInMonth y mo then
    pure (y, mo, d)
  else none

/-- CPython ≤ 3.10's `datetime.fromisoformat` (the interpreter family this
code's own `Z`-replacement targets; 3.11 only adds further leniency): the
first 10 characters must be a valid `YYYY-MM-DD`, the character at index
10 — the separator — is never inspected, and the remainder, when
non-empty, must be a valid `HH[:MM[:SS[.fff[fff]]]][±HH:MM[:SS[.ffffff]]]`
time string. Numeric fields are modelled as ASCII digits (the documented
isoformat output shapes), and the result is the naive instant in
microseconds since the epoch plus the explicit UTC offset in microseconds
when one is given; `none` models the `ValueError`. -/
def fromisoformat (cs : List Char) : Option (ℤ × Option ℤ) := do
  let (y, mo, d) ← parse_isoformat_date (cs.take 10)
  let tstr := cs.drop 11
  let dayMicro : ℤ := daysFromCivil y mo d * 86400000000
  match tstr with
  | [] => pure (dayMicro, none)
  | _ => do
    let (tmicro, off) ← parse_isoformat_time tstr
    pure (dayMicro + (tmicro : ℤ), off)

/-- The input of `parse_time_utc`: a datetime (naive wall-clock epoch
seconds plus its `utcoffset` when aware), a numeric epoch-seconds value, a
string, or a value of any other type. -/
inductive RawTime where
  | dt (wall : ℚ) (tz : Option ℚ)
  | num (x : ℚ)
  | str (s : String)
  | other

/-- Python `str.strip()`: whitespace removed from both ends. -/
def pyStrip (cs : List Char) : List Char :=
  ((cs.dropWhile Char.isWhitespace).reverse.dropWhile Char.isWhitespace).reverse

/-- Lines 31–33: a literal trailing `Z` is replaced by `+00:00`. -/
def zNormalize (cs : List Char) : List Char :=
  if cs.getLast? = some 'Z' then cs.dropLast ++ "+00:00".data else cs

/-- `parse_time_utc` (time_utils.py lines 20–37); the result is the physical
instant in UTC epoch seconds (tz-aware by construction), errors model the
`ValueError`/`TypeError` raised by the Python code. -/
def parse_time_utc : RawTime → Except String ℚ
  | .dt wall none => .ok wall
  | .dt wall (some off) => .ok (wall - off)
  | .num x => .ok x
  | .str s =>
    match fromisoformat (zNormalize (pyStrip s.data)) with
    | some (naive, none) => .ok ((naive : ℚ) / 1000000)
    | some (naive, some off) => .ok (((naive - off : ℤ) : ℚ) / 1000000)
    | none => .error "Invalid isoformat string"
  | .other => .error "Unsupported time type"

instance : DecidableEq (Except String ℚ) := fun x y =>
  match x, y with
  | .ok a, .ok b =>
      if h : a = b then isTrue (by rw [h]) else isFalse (fun hh => h (Except.ok.inj hh))
  | .error a, .error b =>
      if h : a = b then isTrue (by rw [h]) else isFalse (fun hh => h (Except.error.inj hh))
  | .ok _, .error _ => isFalse (fun hh => Except.noConfusion hh)
  | .error _, .ok _ => isFalse (fun hh => Except.noConfusion hh)

/-- A summary record whose every metric field holds the same numeric value. -/
noncomputable def constRec (t : Option ℤ) (x : ℝ) : SummaryRec := ⟨t, fun _ => .num x⟩

noncomputable def hist4 : List SummaryRec :=
  [constRec (some 1) 10, constRec (some 2) 20, constRec (some 3) 30, constRec (some 4) 40]

noncomputable def hist5 : List SummaryRec :=
  [constRec (some 1) 10, constRec (some 2) 20, constRec (some 3) 30, constRec (some 4) 40,
   constRec (some 5) 50]

/-- The gap rule between consecutive samples of one session. -/
def withinGap (g : ℚ) (a b : Row) : Prop := timeOf b - timeOf a ≤ g

/-- The gap rule between adjacent sessions. -/
def splitGap (g : ℚ) (c e : List Row) : Prop :=
  g < timeOf (e.headD dRow) - timeOf (c.getLastD dRow)

theorem chunksRec_head (g : ℚ) (r : Row) (l : List Row) :
    ∃ c cs, chunksRec g r l = (r :: c) :: cs := by
  induction l generalizing r with
  | nil => exact ⟨[], [], rfl⟩
  | cons r' rest ih =>
    by_cases h : g < timeOf r' - timeOf r
    · exact ⟨[], chunksRec g r' rest, by simp [chunksRec, h]⟩
    · obtain ⟨c, cs, hc⟩ := ih r'
      exact ⟨r' :: c, cs, by simp [chunksRec, h, hc]⟩

theorem chunksRec_ne_nil (g : ℚ) (r : Row) (l : List Row) : chunksRec g r l ≠ [] := by
  obtain ⟨c, cs, hc⟩ := chunksRec_head g r l
  simp [hc]

theorem chunksRec_flatten (g : ℚ) (r : Row) (l : List Row) :
    (chunksRec g r l).flatten = r :: l := by
  induction l generalizing r with
  | nil => simp [chunksRec]
  | cons r' rest ih =>
    by_cases h : g < timeOf r' - timeOf r
    · simp [chunksRec, h, ih r']
    · obtain ⟨c, cs, hc⟩ := chunksRec_head g r' rest
      have hflat := ih r'
      rw [hc] at hflat
      simp only [chunksRec, if_neg h, hc]
      simpa using hflat

theorem chunksRec_mem_ne_nil (g : ℚ) (r : Row) (l : List Row) :
    ∀ b ∈ chunksRec g r l, b ≠ [] := by
  induction l generalizing r with
  | nil => simp [chunksRec]
  | cons r' rest ih =>
    intro b hb
    by_cases h : g < timeOf r' - timeOf r
    · simp only [chunksRec, if_pos h, List.mem_cons] at hb
      rcases hb with rfl | hb
      · simp
      · exact ih r' b hb
    · obtain ⟨c, cs, hc⟩ := chunksRec_head g r' rest
      simp only [chunksRec, if_neg h, hc, List.mem_cons] at hb
      rcases hb with rfl | hb
      · simp
      · exact ih r' b (by rw [hc]; exact List.mem_cons_of_mem _ hb)

theorem mapHead_nil_append (bs : List (List Row)) : mapHead (fun c => [] ++ c) bs = bs := by
  cases bs <;> simp [mapHead]

theorem foldl_stepRow_spec (g : ℚ) (rest : List Row) :
    ∀ (sessions : List (List Row)) (cur : List Row) (r : Row),
    finishGroups (rest.foldl (stepRow g) (sessions, cur ++ [r], some (timeOf r))) =
      sessions ++ mapHead (fun c => cur ++ c) (chunksRec g r rest) := by
  induction rest with
  | nil =>
    intro sessions cur r
    simp [finishGroups, chunksRec, mapHead]
  | cons r' rest ih =>
    intro sessions cur r
    by_cases h : g < timeOf r' - timeOf r
    · have hstep : stepRow g (sessions, cur ++ [r], some (timeOf r)) r' =
          (sessions ++ [cur ++ [r]], [] ++ [r'], some (timeOf r')) := by
        simp [stepRow, h]
      rw [List.foldl_cons, hstep, ih (sessions ++ [cur ++ [r]]) [] r']
      rw [mapHead_nil_append]
      obtain ⟨c, cs, hc⟩ := chunksRec_head g r' rest
      simp [chunksRec, h, hc, mapHead]
    · have hstep : stepRow g (sessions, cur ++ [r], some (timeOf r)) r' =
          (sessions, (cur ++ [r]) ++ [r'], some (timeOf r')) := by
        have hcond : ¬ (g < timeOf r' - timeOf r ∧ cur ++ [r] ≠ []) := fun hh => h hh.1
        simp only [stepRow]
        rw [if_neg hcond]
      rw [List.foldl_cons, hstep, ih sessions (cur ++ [r]) r']
      obtain ⟨c, cs, hc⟩ := chunksRec_head g r' rest
      simp only [chunksRec, if_neg h, hc, mapHead]
      simp

theorem groupRows_nil (g : ℚ) : groupRows g [] = [] := rfl

theorem groupRows_cons (g : ℚ) (r : Row) (l : List Row) :
    groupRows g (r :: l) = chunksRec g r l := by
  have hstep : stepRow g ([], [], none) r = ([], [] ++ [r], some (timeOf r)) := by
    simp [stepRow]
  unfold groupRows
  rw [List.foldl_cons, hstep, foldl_stepRow_spec g l [] [] r, mapHead_nil_append]
  simp

theorem groupRows_flatten (g : ℚ) (l : List Row) : (groupRows g l).flatten = l := by
  cases l with
  | nil => simp [groupRows_nil]
  | cons r rest => rw [groupRows_cons]; exact chunksRec_flatten g r rest

theorem groupRows_mem_ne_nil (g : ℚ) (l : List Row) : ∀ b ∈ groupRows g l, b ≠ [] := by
  cases l with
  | nil => simp [groupRows_nil]
  | cons r rest => rw [groupRows_cons]; exact chunksRec_mem_ne_nil g r rest

theorem chunksRec_chain_within (g : ℚ) (r : Row) (l : List Row) :
    ∀ b ∈ chunksRec g r l, b.Chain' (withinGap g) := by
  induction l generalizing r with
  | nil =>
    intro b hb
    simp only [chunksRec, List.mem_singleton] at hb
    subst hb; simp
  | cons r' rest ih =>
    intro b hb
    by_cases h : g < timeOf r' - timeOf r
    · simp only [chunksRec, if_pos h, List.mem_cons] at hb
      rcases hb with rfl | hb
      · simp
      · exact ih r' b hb
    · obtain ⟨c, cs, hc⟩ := chunksRec_head g r' rest
      simp only [chunksRec, if_neg h, hc, List.mem_cons] at hb
      rcases hb with rfl | hb
      · have h1 : (r' :: c).Chain' (withinGap g) :=
          ih r' (r' :: c) (by rw [hc]; exact List.mem_cons_self _ _)
        exact List.chain'_cons.mpr ⟨le_of_not_lt h, h1⟩
      · exact ih r' b (by rw [hc]; exact List.mem_cons_of_mem _ hb)

theorem chunksRec_chain_split (g : ℚ) (r : Row) (l : List Row) :
    (chunksRec g r l).Chain' (splitGap g) := by
  induction l generalizing r with
  | nil => simp [chunksRec]
  | cons r' rest ih =>
    by_cases h : g < timeOf r' - timeOf r
    · obtain ⟨c, cs, hc⟩ := chunksRec_head g r' rest
      simp only [chunksRec, if_pos h]
      refine List.chain'_cons'.mpr ⟨?_, ih r'⟩
      intro y hy
      rw [hc] at hy
      simp only [List.head?_cons, Option.mem_def, Option.some.injEq] at hy
      subst hy
      simpa [splitGap] using h
    · obtain ⟨c, cs, hc⟩ := chunksRec_head g r' rest
      have hch := ih r'
      rw [hc] at hch
      simp only [chunksRec, if_neg h, hc]
      rcases List.chain'_cons'.mp hch with ⟨hrel, hcs⟩
      refine List.chain'_cons'.mpr ⟨?_, hcs⟩
      intro y hy
      have hy' := hrel y hy
      simpa [splitGap, List.getLastD_eq_getLast?] using hy'

theorem groupRows_chain_within (g : ℚ) (l : List Row) :
    ∀ b ∈ groupRows g l, b.Chain' (withinGap g) := by
  cases l with
  | nil => simp [groupRows_nil]
  | cons r rest => rw [groupRows_cons]; exact chunksRec_chain_within g r rest

theorem groupRows_chain_split (g : ℚ) (l : List Row) :
    (groupRows g l).Chain' (splitGap g) := by
  cases l with
  | nil => simp [groupRows_nil]
  | cons r rest => rw [groupRows_cons]; exact chunksRec_chain_split g r rest

theorem chain_getD {α : Type} {R : α → α → Prop} {l : List α} (h : l.Chain' R) (i : ℕ)
    (hi : i + 1 < l.length) (d : α) : R (l.getD i d) (l.getD (i + 1) d) := by
  have h0 : i < l.length := Nat.lt_of_succ_lt hi
  rw [List.getD_eq_getElem l d h0, List.getD_eq_getElem l d hi]
  exact List.chain'_iff_get.mp h i (by omega)

theorem headD_eq_getD_zero {α : Type} (l : List α) (d : α) : l.headD d = l.getD 0 d := by
  cases l <;> rfl

theorem getLastD_eq_getD {α : Type} (l : List α) (d : α) (h : l ≠ []) :
    l.getLastD d = l.getD (l.length - 1) d := by
  have hlen : l.length - 1 < l.length := by
    cases l with
    | nil => simp at h
    | cons a l' => simp
  rw [List.getD_eq_getElem l d hlen, List.getLastD_eq_getLast?, List.getLast?_eq_getElem?]
  simp [List.getElem?_eq_getElem hlen]

theorem posToSession_adjacent {α : Type} (R : α → α → Prop) (d : α) :
    ∀ (blocks : List (List α)), (∀ b ∈ blocks, b ≠ []) →
    (∀ b ∈ blocks, b.Chain' R) →
    blocks.Chain' (fun c e => ¬ R (c.getLastD d) (e.headD d)) →
    ∀ i, i + 1 < blocks.flatten.length →
    (posToSession blocks i = posToSession blocks (i + 1) ↔
      R (blocks.flatten.getD i d) (blocks.flatten.getD (i + 1) d)) := by
  intro blocks
  induction blocks with
  | nil => intro _ _ _ i hi; simp at hi
  | cons b bs ih =>
    intro hne hchain hsplit i hi
    rw [List.flatten_cons, List.length_append] at hi
    by_cases h1 : i + 1 < b.length
    · have h0 : i < b.length := Nat.lt_of_succ_lt h1
      have hR : R ((b :: bs).flatten.getD i d) ((b :: bs).flatten.getD (i + 1) d) := by
        rw [List.flatten_cons, List.getD_append _ _ _ _ h0, List.getD_append _ _ _ _ h1]
        exact chain_getD (hchain b (List.mem_cons_self _ _)) i h1 d
      simp only [posToSession, if_pos h0, if_pos h1]
      exact iff_of_true trivial hR
    · by_cases h2 : i < b.length
      · have hib : i + 1 - b.length = 0 := by omega
        cases bs with
        | nil => simp only [List.flatten_nil, List.length_nil] at hi; omega
        | cons b' bs' =>
        have hb : b ≠ [] := hne b (List.mem_cons_self _ _)
        have hb' : b' ≠ [] := hne b' (by simp)
        have hnR : ¬ R (b.getLastD d) (b'.headD d) := (List.chain'_cons.mp hsplit).1
        have hgi : (b :: b' :: bs').flatten.getD i d = b.getLastD d := by
          rw [List.flatten_cons, List.getD_append _ _ _ _ h2, getLastD_eq_getD b d hb]
          congr 1
          omega
        have hgi1 : (b :: b' :: bs').flatten.getD (i + 1) d = b'.headD d := by
          have h0' : 0 < b'.length := List.length_pos.mpr hb'
          rw [List.flatten_cons, List.getD_append_right _ _ _ _ (by omega : b.length ≤ i + 1),
            hib, List.flatten_cons, List.getD_append _ _ _ _ h0', headD_eq_getD_zero]
        rw [hgi, hgi1]
        simp only [posToSession, if_pos h2, if_neg h1]
        exact iff_of_false (by omega) hnR
      · have hble : b.length ≤ i := Nat.le_of_not_lt h2
        have hstep : i + 1 - b.length = (i - b.length) + 1 := by omega
        have hlt : (i - b.length) + 1 < bs.flatten.length := by omega
        have hiff := ih (fun c hc => hne c (List.mem_cons_of_mem _ hc))
          (fun c hc => hchain c (List.mem_cons_of_mem _ hc))
          (List.chain'_cons'.mp hsplit).2 (i - b.length) hlt
        simp only [posToSession, if_neg h1, if_neg h2, hstep]
        rw [List.flatten_cons, List.getD_append_right _ _ _ _ hble,
          List.getD_append_right _ _ _ _ (by omega : b.length ≤ i + 1), hstep]
        rw [Nat.add_right_cancel_iff]
        exact hiff

theorem build_points_eq_groupRows (rows : List Row) (gap_hours : ℚ) :
    (build_stage_sessions rows gap_hours).map StageSession.points =
      groupRows (gap_hours * 3600) (sortedRows rows) := by
  unfold build_stage_sessions
  rw [List.map_map]
  have : StageSession.points ∘ mkSession = id := funext fun s => rfl
  rw [this, List.map_id]

/-- C1: after discarding samples missing a stage code or timestamp and
sorting by timestamp, two consecutive retained samples land in the same
session exactly when their gap is at most `gap_hours * 3600` seconds (the
boundary case stays in one session); a strictly larger gap puts them in
different sessions. -/
theorem c1_gap_threshold_splits_sessions (rows : List Row) (gap_hours : ℚ) (i : ℕ)
    (hi : i + 1 < (sortedRows rows).length) :
    (posToSession ((build_stage_sessions rows gap_hours).map StageSession.points) i =
        posToSession ((build_stage_sessions rows gap_hours).map StageSession.points) (i + 1) ↔
      timeOf ((sortedRows rows).getD (i + 1) dRow) - timeOf ((sortedRows rows).getD i dRow) ≤
        gap_hours * 3600) := by
  rw [build_points_eq_groupRows]
  have hflat := groupRows_flatten (gap_hours * 3600) (sortedRows rows)
  have hi' : i + 1 < (groupRows (gap_hours * 3600) (sortedRows rows)).flatten.length := by
    rw [hflat]; exact hi
  have hsplit : (groupRows (gap_hours * 3600) (sortedRows rows)).Chain'
      (fun c e => ¬ withinGap (gap_hours * 3600) (c.getLastD dRow) (e.headD dRow)) := by
    refine (groupRows_chain_split (gap_hours * 3600) (sortedRows rows)).imp ?_
    intro c e hce
    exact not_le.mpr hce
  have h := posToSession_adjacent (withinGap (gap_hours * 3600)) dRow
    (groupRows (gap_hours * 3600) (sortedRows rows))
    (groupRows_mem_ne_nil _ _) (groupRows_chain_within _ _) hsplit i hi'
  rw [hflat] at h
  exact h

/-- Witness for C1: the spec scenario `t = 0, 300, 600, 40000` with a 6-hour
threshold, at the boundary pair `i = 2` (gap `39400 > 21600`). -/
theorem c1_gap_threshold_splits_sessions_witness :
    2 + 1 < (sortedRows [⟨some 0, some 0, none⟩, ⟨some 300, some 1, none⟩,
        ⟨some 600, some 1, none⟩, ⟨some 40000, some 2, none⟩]).length ∧
    (posToSession ((build_stage_sessions [⟨some 0, some 0, none⟩, ⟨some 300, some 1, none⟩,
          ⟨some 600, some 1, none⟩, ⟨some 40000, some 2, none⟩] 6).map StageSession.points) 2 =
        posToSession ((build_stage_sessions [⟨some 0, some 0, none⟩, ⟨some 300, some 1, none⟩,
          ⟨some 600, some 1, none⟩, ⟨some 40000, some 2, none⟩] 6).map StageSession.points)
          (2 + 1) ↔
      timeOf ((sortedRows [⟨some 0, some 0, none⟩, ⟨some 300, some 1, none⟩,
            ⟨some 600, some 1, none⟩, ⟨some 40000, some 2, none⟩]).getD (2 + 1) dRow) -
          timeOf ((sortedRows [⟨some 0, some 0, none⟩, ⟨some 300, some 1, none⟩,
            ⟨some 600, some 1, none⟩, ⟨some 40000, some 2, none⟩]).getD 2 dRow) ≤
        6 * 3600) :=
  ⟨by decide, c1_gap_threshold_splits_sessions _ 6 2 (by decide)⟩

theorem sortedRows_perm (rows : List Row) :
    List.Perm (sortedRows rows) (rows.filter keepRow) :=
  List.perm_insertionSort _ _

theorem sortedRows_sorted (rows : List Row) :
    (sortedRows rows).Pairwise (fun a b => timeOf a ≤ timeOf b) := by
  haveI : IsTotal Row (fun a b => timeOf a ≤ timeOf b) := ⟨fun a b => le_total _ _⟩
  haveI : IsTrans Row (fun a b => timeOf a ≤ timeOf b) := ⟨fun _ _ _ => le_trans⟩
  exact List.sorted_insertionSort _ _

theorem headD_mem {α : Type} (l : List α) (d : α) (h : l ≠ []) : l.headD d ∈ l := by
  cases l with
  | nil => simp at h
  | cons a l' => simp

theorem getLastD_mem {α : Type} (l : List α) (d : α) (h : l ≠ []) : l.getLastD d ∈ l := by
  have hlen : l.length - 1 < l.length := by
    cases l with
    | nil => simp at h
    | cons a l' => simp
  rw [getLastD_eq_getD l d h, List.getD_eq_getElem l d hlen]
  exact List.getElem_mem _

theorem head_le_last_of_sorted (b : List Row) (hb : b ≠ [])
    (hs : b.Pairwise (fun a c => timeOf a ≤ timeOf c)) :
    timeOf (b.headD dRow) ≤ timeOf (b.getLastD dRow) := by
  rcases Nat.lt_or_ge 1 b.length with h1 | h1
  · rw [headD_eq_getD_zero, getLastD_eq_getD b dRow hb]
    have h0 : 0 < b.length := by omega
    have hlast : b.length - 1 < b.length := by omega
    rw [List.getD_eq_getElem b dRow h0, List.getD_eq_getElem b dRow hlast]
    exact List.pairwise_iff_getElem.mp hs 0 (b.length - 1) h0 hlast (by omega)
  · cases b with
    | nil => simp at hb
    | cons a l =>
      have : l = [] := by
        cases l with
        | nil => rfl
        | cons x xs => simp at h1
      subst this
      simp

theorem groupRows_block_sublist (g : ℚ) (l : List Row) (b : List Row)
    (hb : b ∈ groupRows g l) : b.Sublist l := by
  have h := List.sublist_flatten_of_mem hb
  rwa [groupRows_flatten] at h

theorem build_mem_rows {rows : List Row} {gap_hours : ℚ} {b : List Row}
    (hb : b ∈ groupRows (gap_hours * 3600) (sortedRows rows)) {r : Row} (hr : r ∈ b) :
    r ∈ rows := by
  have h1 : r ∈ sortedRows rows := (groupRows_block_sublist _ _ b hb).mem hr
  have h2 : r ∈ rows.filter keepRow := (sortedRows_perm rows).mem_iff.mp h1
  exact (List.mem_filter.mp h2).1

theorem chain_end_lt_start (g : ℚ) (blocks : List (List Row))
    (hdur : ∀ b ∈ blocks, lastDurSeconds (b.getLastD dRow) ≤ g)
    (hsplit : blocks.Chain' (splitGap g)) :
    (blocks.map mkSession).Chain' (fun S T => S.end_utc < T.start_utc) := by
  induction blocks with
  | nil => simp
  | cons b bs ih =>
    rcases List.chain'_cons'.mp hsplit with ⟨hhead, htail⟩
    have htl := ih (fun c hc => hdur c (List.mem_cons_of_mem _ hc)) htail
    rw [List.map_cons]
    refine List.chain'_cons'.mpr ⟨?_, htl⟩
    intro y hy
    cases bs with
    | nil => simp at hy
    | cons b' bs' =>
      simp only [List.map_cons, List.head?_cons, Option.mem_def, Option.some.injEq] at hy
      subst hy
      have hrel : splitGap g b b' := hhead b' rfl
      have hd : lastDurSeconds (b.getLastD dRow) ≤ g := hdur b (List.mem_cons_self _ _)
      show (mkSession b).end_utc < (mkSession b').start_utc
      simp only [mkSession]
      unfold splitGap at hrel
      linarith

theorem pairwise_of_chain_end_lt_start (l : List StageSession)
    (hc : l.Chain' (fun S T => S.end_utc < T.start_utc))
    (hse : ∀ S ∈ l, S.start_utc ≤ S.end_utc) :
    l.Pairwise (fun S T => S.end_utc < T.start_utc) := by
  induction l with
  | nil => exact List.Pairwise.nil
  | cons S l ih =>
    rcases List.chain'_cons'.mp hc with ⟨hhead, htail⟩
    have hp : l.Pairwise (fun S T => S.end_utc < T.start_utc) :=
      ih htail (fun T hT => hse T (List.mem_cons_of_mem _ hT))
    refine List.Pairwise.cons ?_ hp
    intro T hT
    cases l with
    | nil => simp at hT
    | cons T0 l' =>
      have h0 : S.end_utc < T0.start_utc := hhead T0 rfl
      rcases List.mem_cons.mp hT with rfl | hT'
      · exact h0
      · have h1 : T0.end_utc < T.start_utc := (List.pairwise_cons.mp hp).1 T hT'
        have h2 : T0.start_utc ≤ T0.end_utc := hse T0 (by simp)
        linarith

/-- C2 (amended): the multiset of points across the returned sessions always
equals the input minus the discarded (missing-field) samples; the sessions'
`[start_utc, end_utc]` intervals are mutually disjoint provided every
explicit sample duration lies in `[0, threshold]` and the 240-second default
does not exceed the threshold (without that bound a long final duration can
spill into the next session, see the counterexample). -/
theorem c2_session_points_partition_and_disjointness (rows : List Row) (gap_hours : ℚ) :
    (((build_stage_sessions rows gap_hours).map StageSession.points).flatten : Multiset Row) =
      (rows.filter keepRow : Multiset Row) ∧
    ((∀ r ∈ rows, ∀ d, r.dur = some d → 0 ≤ d ∧ d ≤ gap_hours * 3600) →
      240 ≤ gap_hours * 3600 →
      (build_stage_sessions rows gap_hours).Pairwise
        (fun S T => S.end_utc < T.start_utc ∨ T.end_utc < S.start_utc)) := by
  constructor
  · have h1 : ((build_stage_sessions rows gap_hours).map StageSession.points).flatten =
        sortedRows rows := by
      rw [build_points_eq_groupRows]; exact groupRows_flatten _ _
    rw [h1]
    exact Multiset.coe_eq_coe.mpr (sortedRows_perm rows)
  · intro Hdur Hdef
    have hdur0 : ∀ b ∈ groupRows (gap_hours * 3600) (sortedRows rows),
        0 ≤ lastDurSeconds (b.getLastD dRow) ∧
          lastDurSeconds (b.getLastD dRow) ≤ gap_hours * 3600 := by
      intro b hb
      have hbne : b ≠ [] := groupRows_mem_ne_nil _ _ b hb
      have hmem : b.getLastD dRow ∈ rows := build_mem_rows hb (getLastD_mem b dRow hbne)
      rcases hc : (b.getLastD dRow).dur with _ | d
      · simp only [lastDurSeconds, hc]
        exact ⟨by norm_num, Hdef⟩
      · rcases Hdur _ hmem d hc with ⟨hd0, hdle⟩
        by_cases hz : d = 0
        · simp only [lastDurSeconds, hc, hz, if_pos rfl]
          exact ⟨by norm_num, Hdef⟩
        · simp only [lastDurSeconds, hc, if_neg hz]
          exact ⟨hd0, hdle⟩
    have hse : ∀ S ∈ build_stage_sessions rows gap_hours, S.start_utc ≤ S.end_utc := by
      intro S hS
      rcases List.mem_map.mp hS with ⟨b, hb, rfl⟩
      have hbne : b ≠ [] := groupRows_mem_ne_nil _ _ b hb
      have hsorted : b.Pairwise (fun a c => timeOf a ≤ timeOf c) :=
        List.Pairwise.sublist (groupRows_block_sublist _ _ b hb) (sortedRows_sorted rows)
      have hle := head_le_last_of_sorted b hbne hsorted
      have hnn := (hdur0 b hb).1
      show (mkSession b).start_utc ≤ (mkSession b).end_utc
      simp only [mkSession]
      linarith
    have hchain : (build_stage_sessions rows gap_hours).Chain'
        (fun S T => S.end_utc < T.start_utc) :=
      chain_end_lt_start (gap_hours * 3600) _ (fun b hb => (hdur0 b hb).2)
        (groupRows_chain_split _ _)
    have hpair := pairwise_of_chain_end_lt_start _ hchain hse
    exact hpair.imp (fun h => Or.inl h)

/-- Counterexample for C2 as stated: a first sample whose 100000-second
duration overruns the 50000-second gap to the next sample produces the
intervals `[0, 100000]` and `[50000, 50240]`, which overlap. -/
theorem c2_counterexample :
    ((build_stage_sessions [⟨some 0, some 0, some 100000⟩, ⟨some 50000, some 0, none⟩] 6).map
        (fun S => (S.start_utc, S.end_utc)) = [(0, 100000), (50000, 50240)]) ∧
    ¬ ((100000 : ℚ) < 50000 ∨ (50240 : ℚ) < 0) := by
  constructor
  · norm_num +decide [build_stage_sessions, sortedRows, groupRows, finishGroups, stepRow,
      mkSession, timeOf, keepRow, lastDurSeconds, sessionTotal, List.insertionSort,
      List.orderedInsert, dRow]
  · norm_num

/-- Witness for C2 at the spec scenario rows (all durations absent, 6-hour
threshold): both the duration hypothesis (vacuous) and `240 ≤ 21600` hold,
and the theorem yields pairwise-disjoint sessions. -/
theorem c2_session_points_partition_and_disjointness_witness :
    (240 : ℚ) ≤ 6 * 3600 ∧
    (build_stage_sessions [⟨some 0, some 0, none⟩, ⟨some 300, some 1, none⟩,
        ⟨some 600, some 1, none⟩, ⟨some 40000, some 2, none⟩] 6).Pairwise
      (fun S T => S.end_utc < T.start_utc ∨ T.end_utc < S.start_utc) :=
  ⟨by norm_num,
    (c2_session_points_partition_and_disjointness _ 6).2
      (by intro r hr d hd; fin_cases hr <;> simp at hd) (by norm_num)⟩

/-- C5 (amended): each returned session's `end_utc` is the final sample's
timestamp plus that sample's own duration when the duration is present and
nonzero, and plus the fixed 240-second default when the duration is absent
or zero (Python's `or`-fallback); zero input samples give an empty session
list, and a single retained sample with no duration gives a one-point
session ending 240 seconds after its timestamp. -/
theorem c5_session_end_time_rule :
    (∀ gap_hours : ℚ, build_stage_sessions [] gap_hours = []) ∧
    (∀ (rows : List Row) (gap_hours : ℚ), ∀ S ∈ build_stage_sessions rows gap_hours,
      S.points ≠ [] ∧
      S.end_utc = timeOf (S.points.getLastD dRow) + lastDurSeconds (S.points.getLastD dRow) ∧
      ((S.points.getLastD dRow).dur = none → S.end_utc = timeOf (S.points.getLastD dRow) + 240) ∧
      (∀ d : ℚ, (S.points.getLastD dRow).dur = some d → d ≠ 0 →
        S.end_utc = timeOf (S.points.getLastD dRow) + d) ∧
      ((S.points.getLastD dRow).dur = some 0 → S.end_utc = timeOf (S.points.getLastD dRow) + 240)) ∧
    (∀ (r : Row) (gap_hours : ℚ), keepRow r = true → r.dur = none →
      build_stage_sessions [r] gap_hours = [⟨[r], timeOf r, timeOf r + 240, 0⟩]) := by
  refine ⟨fun _ => rfl, ?_, ?_⟩
  · intro rows gap_hours S hS
    rcases List.mem_map.mp hS with ⟨b, hb, rfl⟩
    have hbne : b ≠ [] := groupRows_mem_ne_nil _ _ b hb
    refine ⟨hbne, rfl, ?_, ?_, ?_⟩
    · intro hd
      simp only [mkSession] at hd ⊢
      unfold lastDurSeconds
      rw [hd]
    · intro d hd hdz
      simp only [mkSession] at hd ⊢
      unfold lastDurSeconds
      rw [hd]
      simp [hdz]
    · intro hd
      simp only [mkSession] at hd ⊢
      unfold lastDurSeconds
      rw [hd]
      norm_num
  · intro r gap_hours hkeep hd
    have hfilter : [r].filter keepRow = [r] := by simp [List.filter, hkeep]
    have hsorted : sortedRows [r] = [r] := by
      unfold sortedRows
      rw [hfilter]
      rfl
    unfold build_stage_sessions
    rw [hsorted, groupRows_cons]
    simp [chunksRec, mkSession, sessionTotal, lastDurSeconds, hd]

/-- Counterexample for C5 as stated: a single sample at `t = 0` with the
explicit duration 0 present still gets the 240-second default end, not
`0 + 0`. -/
theorem c5_counterexample :
    (build_stage_sessions [⟨some 0, some 0, some 0⟩] 6).map StageSession.end_utc = [240] ∧
    (240 : ℚ) ≠ 0 + 0 := by
  constructor
  · norm_num +decide [build_stage_sessions, sortedRows, groupRows, finishGroups, stepRow,
      mkSession, timeOf, keepRow, lastDurSeconds, sessionTotal, List.insertionSort,
      List.orderedInsert, dRow]
  · norm_num

/-- Witness for C5: a single no-duration sample at `t = 100` yields one
one-point session ending at `100 + 240`. -/
theorem c5_session_end_time_rule_witness :
    keepRow ⟨some 100, some 1, none⟩ = true ∧
    (⟨some 100, some 1, none⟩ : Row).dur = none ∧
    build_stage_sessions [⟨some 100, some 1, none⟩] 6 =
      [⟨[⟨some 100, some 1, none⟩], timeOf ⟨some 100, some 1, none⟩,
        timeOf ⟨some 100, some 1, none⟩ + 240, 0⟩] :=
  ⟨by decide, by decide,
    c5_session_end_time_rule.2.2 ⟨some 100, some 1, none⟩ 6 (by decide) (by decide)⟩

theorem foldl_min_eq_firstMin {α : Type} (key : α → ℚ) (l : List α) :
    ∀ b : α, l.foldl (fun best a => if key a < key best then a else best) b =
      firstMin key b l := by
  induction l with
  | nil => intro b; rfl
  | cons a l ih =>
    intro b
    rw [List.foldl_cons]
    by_cases h : key a < key b
    · rw [if_pos h]
      simp only [firstMin, if_pos h]
      exact ih a
    · rw [if_neg h]
      simp only [firstMin, if_neg h]
      exact ih b

theorem firstMin_spec {α : Type} (key : α → ℚ) (l : List α) :
    ∀ b : α, ∃ l1 l2, b :: l = l1 ++ firstMin key b l :: l2 ∧
      (∀ x ∈ l1, key (firstMin key b l) < key x) ∧
      (∀ x ∈ b :: l, key (firstMin key b l) ≤ key x) := by
  induction l with
  | nil =>
    intro b
    refine ⟨[], [], rfl, by simp, ?_⟩
    intro x hx
    rw [List.mem_singleton.mp hx]
    exact le_rfl
  | cons a l ih =>
    intro b
    by_cases h : key a < key b
    · obtain ⟨l1, l2, he, hlt, hle⟩ := ih a
      have hm : firstMin key b (a :: l) = firstMin key a l := by
        simp only [firstMin, if_pos h]
      have hma : key (firstMin key a l) ≤ key a := hle a (List.mem_cons_self _ _)
      refine ⟨b :: l1, l2, ?_, ?_, ?_⟩
      · rw [hm, List.cons_append, ← he]
      · intro x hx
        rw [hm]
        rcases List.mem_cons.mp hx with rfl | hx'
        · exact lt_of_le_of_lt hma h
        · exact hlt x hx'
      · intro x hx
        rw [hm]
        rcases List.mem_cons.mp hx with rfl | hx'
        · exact le_of_lt (lt_of_le_of_lt hma h)
        · exact hle x hx'
    · obtain ⟨l1, l2, he, hlt, hle⟩ := ih b
      have hm : firstMin key b (a :: l) = firstMin key b l := by
        simp only [firstMin, if_neg h]
      have hba : key b ≤ key a := le_of_not_lt h
      have hmb : key (firstMin key b l) ≤ key b := hle b (List.mem_cons_self _ _)
      cases l1 with
      | nil =>
        have hbm : b = firstMin key b l := by
          have := he
          rw [List.nil_append] at this
          exact (List.cons.injEq _ _ _ _ ▸ this).1
        have hl2 : l = l2 := by
          rw [List.nil_append] at he
          exact (List.cons.injEq _ _ _ _ ▸ he).2
        refine ⟨[], a :: l2, ?_, by simp, ?_⟩
        · rw [hm, List.nil_append, ← hbm, hl2]
        · intro x hx
          rw [hm, ← hbm]
          rcases List.mem_cons.mp hx with rfl | hx'
          · exact le_rfl
          · rcases List.mem_cons.mp hx' with rfl | hx''
            · exact hba
            · have : x ∈ b :: l := List.mem_cons_of_mem _ hx''
              calc key b = key (firstMin key b l) := by rw [← hbm]
                _ ≤ key x := hle x this
      | cons c l1' =>
        have hbc : b = c ∧ l = l1' ++ firstMin key b l :: l2 := by
          rw [List.cons_append] at he
          exact ⟨(List.cons.injEq _ _ _ _ ▸ he).1, (List.cons.injEq _ _ _ _ ▸ he).2⟩
        have hmltb : key (firstMin key b l) < key b := by
          have := hlt c (List.mem_cons_self _ _)
          rwa [← hbc.1] at this
        refine ⟨b :: a :: l1', l2, ?_, ?_, ?_⟩
        · rw [hm, List.cons_append, List.cons_append, ← hbc.2]
        · intro x hx
          rw [hm]
          rcases List.mem_cons.mp hx with rfl | hx'
          · exact hmltb
          · rcases List.mem_cons.mp hx' with rfl | hx''
            · exact lt_of_lt_of_le hmltb hba
            · exact hlt x (List.mem_cons_of_mem _ hx'')
        · intro x hx
          rw [hm]
          rcases List.mem_cons.mp hx with rfl | hx'
          · exact le_of_lt hmltb
          · rcases List.mem_cons.mp hx' with rfl | hx''
            · exact le_of_lt (lt_of_lt_of_le hmltb hba)
            · exact hle x (List.mem_cons_of_mem _ hx'')

/-- C4 (amended): `match_session_to_summary` fails exactly on an empty
candidate list; on a non-empty list it returns a session whose
`|end_utc − target|` key is minimal, and a tie is broken by the earliest
position in the input list (which agrees with earliest `start_utc` only
when the candidates are listed in time order, as the session builder emits
them), not by comparing `start_utc` itself. -/
theorem c4_match_session_nearest_end (target : ℚ) :
    (∀ sessions : List StageSession,
      match_session_to_summary target sessions = none ↔ sessions = []) ∧
    (∀ (s : StageSession) (rest : List StageSession), ∃ m l1 l2,
      match_session_to_summary target (s :: rest) = some m ∧
      s :: rest = l1 ++ m :: l2 ∧
      (∀ x ∈ l1, sessKey target m < sessKey target x) ∧
      (∀ x ∈ s :: rest, sessKey target m ≤ sessKey target x)) := by
  constructor
  · intro sessions
    cases sessions with
    | nil => simp [match_session_to_summary]
    | cons s rest => simp [match_session_to_summary]
  · intro s rest
    obtain ⟨l1, l2, he, hlt, hle⟩ := firstMin_spec (sessKey target) rest s
    refine ⟨firstMin (sessKey target) s rest, l1, l2, ?_, he, hlt, hle⟩
    simp only [match_session_to_summary]
    rw [foldl_min_eq_firstMin]

/-- Counterexample for C4 as stated: two sessions equidistant from the
target (both keys equal 10); the first listed session (start 20) is
returned even though the other session has the strictly earlier start 0. -/
theorem c4_counterexample :
    match_session_to_summary 20 [⟨[], 20, 30, 0⟩, ⟨[], 0, 10, 0⟩] = some ⟨[], 20, 30, 0⟩ ∧
    sessKey 20 ⟨[], 20, 30, 0⟩ = sessKey 20 ⟨[], 0, 10, 0⟩ ∧
    (⟨[], 0, 10, 0⟩ : StageSession).start_utc < (⟨[], 20, 30, 0⟩ : StageSession).start_utc := by
  refine ⟨?_, ?_, ?_⟩
  · norm_num [match_session_to_summary, sessKey]
  · norm_num [sessKey]
  · norm_num

theorem mean_std_eq_pop (values : List ℝ) :
    mean_std values = (popMean values, popStd values) := by
  unfold mean_std popMean popStd
  by_cases h : values = []
  · subst h
    simp
  · rw [if_neg h]
    simp only [popMean]

/-- C3: for every history, metric list, `min_count` and optional excluded
record, a metric with fewer than `min_count` valid values maps to the
`(0, 0)` sentinel, and otherwise to the population mean and the population
standard deviation (divisor = count, not count − 1) with a value below
`1e-12` snapped to exactly 0; the scenario history `[10,20,30,40,50]` with
no exclusion yields mean 30 and standard deviation `√200 ≈ 14.14`. -/
theorem c3_baselines_population_stats :
    (∀ (summaries : List SummaryRec) (metrics : List String) (min_count : ℕ)
        (exclude_summary : Option SummaryRec) (metric : String), metric ∈ metrics →
      ((metricVals summaries metric exclude_summary).length < min_count →
        (metric, ((0 : ℝ), (0 : ℝ))) ∈
          compute_metric_baselines summaries metrics min_count exclude_summary) ∧
      (min_count ≤ (metricVals summaries metric exclude_summary).length →
        (metric, (popMean (metricVals summaries metric exclude_summary),
            if popStd (metricVals summaries metric exclude_summary) < 1e-12 then 0
            else popStd (metricVals summaries metric exclude_summary))) ∈
          compute_metric_baselines summaries metrics min_count exclude_summary)) ∧
    ((("m", ((30 : ℝ), Real.sqrt 200)) ∈ compute_metric_baselines hist5 ["m"] 5 none) ∧
      (14.14 : ℝ) < Real.sqrt 200 ∧ Real.sqrt 200 < (14.15 : ℝ)) := by
  have h1414 : (14.14 : ℝ) < Real.sqrt 200 := by
    rw [Real.lt_sqrt (by norm_num)]
    norm_num
  have h1415 : Real.sqrt 200 < (14.15 : ℝ) := by
    rw [Real.sqrt_lt' (by norm_num)]
    norm_num
  constructor
  · intro summaries metrics min_count exclude_summary metric hmem
    constructor
    · intro hlt
      unfold compute_metric_baselines
      refine List.mem_map.mpr ⟨metric, hmem, ?_⟩
      simp only [if_pos hlt]
    · intro hge
      unfold compute_metric_baselines
      refine List.mem_map.mpr ⟨metric, hmem, ?_⟩
      simp only [if_neg (not_lt.mpr hge), mean_std_eq_pop]
  · have hvals : metricVals hist5 "m" none = [10, 20, 30, 40, 50] := by
      simp [metricVals, hist5, constRec, excludeTime]
    have hmean : popMean [(10 : ℝ), 20, 30, 40, 50] = 30 := by
      norm_num [popMean]
    have hstd : popStd [(10 : ℝ), 20, 30, 40, 50] = Real.sqrt 200 := by
      rw [popStd, hmean]
      norm_num
    refine ⟨?_, h1414, h1415⟩
    unfold compute_metric_baselines
    refine List.mem_map.mpr ⟨"m", by simp, ?_⟩
    simp only [hvals]
    rw [if_neg (by norm_num), mean_std_eq_pop, hmean, hstd]
    rw [if_neg (not_lt.mpr (le_trans (by norm_num : (1e-12 : ℝ) ≤ 14.14) h1414.le))]

/-- Witness for C3: with only four history values and `min_count = 5`, the
baseline is the `(0, 0)` sentinel. -/
theorem c3_baselines_population_stats_witness :
    (metricVals hist4 "m" none).length < 5 ∧
    ("m", ((0 : ℝ), (0 : ℝ))) ∈ compute_metric_baselines hist4 ["m"] 5 none :=
  ⟨by simp [metricVals, hist4, constRec, excludeTime],
    (c3_baselines_population_stats.1 hist4 ["m"] 5 none "m" (by simp)).1
      (by simp [metricVals, hist4, constRec, excludeTime])⟩

/-- C10: when the exclude record's `time` value is missing, no history
record is excluded at all — the result is identical to computing with no
exclusion, so every record (including ones without a `time`) contributes. -/
theorem c10_missing_exclude_time_excludes_nothing
    (summaries : List SummaryRec) (metrics : List String) (min_count : ℕ)
    (e : SummaryRec) (he : e.time = none) :
    compute_metric_baselines summaries metrics min_count (some e) =
      compute_metric_baselines summaries metrics min_count none := by
  simp only [compute_metric_baselines, metricVals, excludeTime, he]

/-- Witness for C10: a concrete exclude record with no `time` leaves a
one-record history's baselines unchanged. -/
theorem c10_missing_exclude_time_excludes_nothing_witness :
    (⟨none, fun _ => .num 7⟩ : SummaryRec).time = none ∧
    compute_metric_baselines [⟨none, fun _ => .num 3⟩] ["m"] 1
        (some ⟨none, fun _ => .num 7⟩) =
      compute_metric_baselines [⟨none, fun _ => .num 3⟩] ["m"] 1 none :=
  ⟨rfl, c10_missing_exclude_time_excludes_nothing _ _ 1 _ rfl⟩

theorem round_mono' {x y : ℝ} (h : x ≤ y) : round x ≤ round y := by
  rw [round_eq, round_eq]
  exact Int.floor_mono (by linarith)

theorem tie_eq {x : ℝ} (hx : Int.fract x = 1 / 2) : x = (⌊x⌋ : ℝ) + 1 / 2 := by
  have h := Int.floor_add_fract x
  rw [hx] at h
  linarith

theorem round_of_tie {x : ℝ} (hx : Int.fract x = 1 / 2) : round x = ⌊x⌋ + 1 := by
  rw [round_eq]
  have hxe := tie_eq hx
  have : x + 1 / 2 = ((⌊x⌋ + 1 : ℤ) : ℝ) := by push_cast; linarith
  rw [this, Int.floor_intCast]

theorem roundHalfEven_le_round (x : ℝ) : roundHalfEven x ≤ round x := by
  unfold roundHalfEven
  by_cases hx : Int.fract x = 1 / 2
  · rw [if_pos hx, round_of_tie hx]
    by_cases he : Even ⌊x⌋
    · rw [if_pos he]; omega
    · rw [if_neg he]
  · rw [if_neg hx]

theorem floor_le_roundHalfEven (x : ℝ) : ⌊x⌋ ≤ roundHalfEven x := by
  unfold roundHalfEven
  by_cases hx : Int.fract x = 1 / 2
  · rw [if_pos hx]
    by_cases he : Even ⌊x⌋
    · rw [if_pos he]
    · rw [if_neg he]; omega
  · rw [if_neg hx, round_eq]
    exact Int.floor_mono (by linarith)

theorem roundHalfEven_mono {x y : ℝ} (hxy : x ≤ y) : roundHalfEven x ≤ roundHalfEven y := by
  rcases eq_or_lt_of_le hxy with rfl | hlt
  · exact le_rfl
  by_cases hx : Int.fract x = 1 / 2 <;> by_cases hy : Int.fract y = 1 / 2
  · have hxe := tie_eq hx
    have hye := tie_eq hy
    have hfl : ⌊x⌋ < ⌊y⌋ := by
      have hr : ((⌊x⌋ : ℝ)) < (⌊y⌋ : ℝ) := by linarith
      exact_mod_cast hr
    calc roundHalfEven x ≤ round x := roundHalfEven_le_round x
      _ = ⌊x⌋ + 1 := round_of_tie hx
      _ ≤ ⌊y⌋ := by omega
      _ ≤ roundHalfEven y := floor_le_roundHalfEven y
  · calc roundHalfEven x ≤ round x := roundHalfEven_le_round x
      _ ≤ round y := round_mono' hxy
      _ = roundHalfEven y := by unfold roundHalfEven; rw [if_neg hy]
  · have hye := tie_eq hy
    have h2 : round x ≤ ⌊y⌋ := by
      rw [round_eq]
      have hfl : ⌊x + 1 / 2⌋ < ⌊y⌋ + 1 := by
        rw [Int.floor_lt]
        push_cast
        linarith
      omega
    calc roundHalfEven x = round x := by unfold roundHalfEven; rw [if_neg hx]
      _ ≤ ⌊y⌋ := h2
      _ ≤ roundHalfEven y := floor_le_roundHalfEven y
  · calc roundHalfEven x = round x := by unfold roundHalfEven; rw [if_neg hx]
      _ ≤ round y := round_mono' hxy
      _ = roundHalfEven y := by unfold roundHalfEven; rw [if_neg hy]

/-- C6: the ramp index is monotone in the z-score magnitude — with
`sigma = min(|z|, 2.5)`, `t = (sigma/2.5) ^ 1.6` and
`index = round(t * (rampLength − 1))` clamped to bounds, `|z1| ≤ |z2|`
never decreases the index, for any ramp length ≥ 1 (both ramps have
length 6) and either score sign, since the index does not depend on the
selected ramp side. -/
theorem c6_ramp_index_monotone (n : ℕ) (hn : 1 ≤ n) (z1 z2 : ℝ) (h : |z1| ≤ |z2|) :
    rampIndex |z1| SIGMA_CAP n ≤ rampIndex |z2| SIGMA_CAP n := by
  unfold rampIndex
  have hclamp : sigmaClamp |z1| SIGMA_CAP ≤ sigmaClamp |z2| SIGMA_CAP := by
    unfold sigmaClamp
    exact max_le_max le_rfl (min_le_min h le_rfl)
  have hc0 : (0 : ℝ) < SIGMA_CAP := by unfold SIGMA_CAP; norm_num
  have hmono : rampT |z1| SIGMA_CAP ≤ rampT |z2| SIGMA_CAP := by
    unfold rampT
    rw [if_pos hc0, if_pos hc0]
    have hg0 : (0 : ℝ) ≤ GAMMA := by unfold GAMMA; norm_num
    have hs0 : (0 : ℝ) ≤ sigmaClamp |z1| SIGMA_CAP / SIGMA_CAP := by
      apply div_nonneg _ (le_of_lt hc0)
      unfold sigmaClamp
      exact le_max_left _ _
    exact Real.rpow_le_rpow hs0 (by gcongr) hg0
  have hn1 : (0 : ℝ) ≤ (n : ℝ) - 1 := by
    have : (1 : ℝ) ≤ (n : ℝ) := by exact_mod_cast hn
    linarith
  have hidx := roundHalfEven_mono (mul_le_mul_of_nonneg_right hmono hn1)
  exact max_le_max le_rfl (min_le_min hidx le_rfl)

/-- Witness for C6: ramp length 6 (the `POS_SIGMA_HEXES` ramp) with
magnitudes 0 and 1. -/
theorem c6_ramp_index_monotone_witness :
    1 ≤ POS_SIGMA_HEXES.length ∧ |(0 : ℝ)| ≤ |(1 : ℝ)| ∧
    rampIndex |(0 : ℝ)| SIGMA_CAP POS_SIGMA_HEXES.length ≤
      rampIndex |(1 : ℝ)| SIGMA_CAP POS_SIGMA_HEXES.length :=
  ⟨by simp [POS_SIGMA_HEXES], by norm_num,
    c6_ramp_index_monotone POS_SIGMA_HEXES.length (by simp [POS_SIGMA_HEXES]) 0 1 (by norm_num)⟩

/-- C7 (amended): for a lower-is-better metric with the current value
strictly below the mean, the goodness score is strictly positive and the
favorable (`POS_SIGMA_HEXES`) ramp is selected — provided the baseline
standard deviation exceeds the code's `1e-12` gate, not merely 0 (the
counterexample shows a strictly positive std at the gate produces a zero
z-score instead). -/
theorem c7_lower_is_better_sign (v mu sd : ℝ) (hsd : 1e-12 < sd) (hv : v < mu) :
    0 < goodness (metric_z (some v) mu sd) false ∧
    chosenRamp (goodness (metric_z (some v) mu sd) false) = POS_SIGMA_HEXES := by
  have hz : metric_z (some v) mu sd = (v - mu) / sd := by
    simp only [metric_z]
    rw [if_pos hsd]
  have hsd0 : (0 : ℝ) < sd := lt_trans (by norm_num) hsd
  have hzneg : (v - mu) / sd < 0 := div_neg_of_neg_of_pos (by linarith) hsd0
  have hg : goodness (metric_z (some v) mu sd) false = -((v - mu) / sd) := by
    unfold goodness
    rw [hz]
    simp
  constructor
  · rw [hg]; linarith
  · unfold chosenRamp
    rw [if_pos (by rw [hg]; linarith)]

/-- Witness for C7 at `v = 0`, `mu = 1`, `sd = 1`. -/
theorem c7_lower_is_better_sign_witness :
    (1e-12 : ℝ) < 1 ∧ (0 : ℝ) < 1 ∧
    (0 < goodness (metric_z (some 0) 1 1) false ∧
      chosenRamp (goodness (metric_z (some 0) 1 1) false) = POS_SIGMA_HEXES) :=
  ⟨by norm_num, by norm_num, c7_lower_is_better_sign 0 1 1 (by norm_num) (by norm_num)⟩

/-- Counterexample for C7 as stated: the strictly positive standard
deviation `1e-12` (with current value 0 below the mean 1) is not above the
code's `sd > 1e-12` gate, so the z-score and hence the goodness score are
0, not positive. -/
theorem c7_counterexample :
    (0 : ℝ) < 1e-12 ∧ (0 : ℝ) < 1 ∧
    goodness (metric_z (some 0) 1 1e-12) false = 0 ∧
    ¬ (0 < goodness (metric_z (some 0) 1 1e-12) false) := by
  have hz : metric_z (some 0) 1 1e-12 = 0 := by
    simp only [metric_z]
    rw [if_neg (lt_irrefl _)]
  have hg : goodness (metric_z (some 0) 1 1e-12) false = 0 := by
    unfold goodness
    rw [hz]
    simp
  exact ⟨by norm_num, by norm_num, hg, by rw [hg]; exact lt_irrefl 0⟩

/-- C9: a timezone-naive datetime is returned with its wall-clock value
unchanged, interpreted as already being UTC (neither rejected nor shifted),
while a timezone-aware datetime is converted to UTC preserving the
physical instant (wall-clock minus offset). -/
theorem c9_naive_datetime_read_as_utc :
    (∀ wall : ℚ, parse_time_utc (.dt wall none) = .ok wall) ∧
    (∀ wall off : ℚ, parse_time_utc (.dt wall (some off)) = .ok (wall - off)) :=
  ⟨fun _ => rfl, fun _ _ => rfl⟩

